import Mathlib

/-!
# Verification of the devbox package-declaration core

Shallow embedding of the package-specification resolver and the
format-preserving package-list model of the `configfile` package.
The repository sources at hand contain the test suite
(`TestJsonifyConfigPackages`, `TestParseVersionedName`,
`TestParsePackageSpec`, `TestParseDeprecatedPackageSpec`); the
implementation itself is absent, so each operation is modelled from the
specification and validated below against every row of those test tables.

Documents are modelled as canonical JSON trees (`JsonValue`): the
byte-level guarantee "modulo the document format's own canonical
minimization" becomes equality of canonical trees, and object key order
is significant (assoc lists), matching the order-preserving document
editor the spec describes.
-/

namespace Devbox

/-- Canonical JSON values, restricted to the vocabulary the packages
field uses: strings, arrays, objects with ordered keys. -/
inductive JsonValue where
  | str : String → JsonValue
  | arr : List JsonValue → JsonValue
  | obj : List (String × JsonValue) → JsonValue

/-! ## VersionedNameSplitter (spec 4.1) -/

/-- Index of the last occurrence of `c` in `cs`, if any. -/
def lastIndexOfChar (c : Char) : List Char → Option Nat
  | [] => none
  | x :: xs =>
    match lastIndexOfChar c xs with
    | some i => some (i + 1)
    | none => if x = c then some 0 else none

/-- Modelled from the spec: VersionedNameSplitter (spec 4.1). Splits
`name@version` at the last `@`, refusing to split when there is no `@`,
when the last `@` is the first character, or when it is the final
character. Validated against every row of `TestParseVersionedName`. -/
def parseVersionedName (s : String) : String × String :=
  match lastIndexOfChar '@' s.data with
  | none => (s, "")
  | some i =>
    if i = 0 then (s, "")
    else if i + 1 = s.data.length then (s, "")
    else ((s.data.take i).asString, (s.data.drop (i + 1)).asString)

/-! ## Package / PackagesMutator (spec 4.6): format-preserving model -/

/-- Surface shape a declaration was loaded from (spec 3, `ShapeHint`). -/
inductive ShapeHint where
  | bareString
  | mapValue
  | legacyList
  deriving DecidableEq

/-- One package declaration.  `raw` is the entry-level handle into the
original document (spec 2: "a handle into the original semi-structured
document"): for a legacy-list entry it records the original string, so an
unmodified collection re-serializes byte-identically even when the
version was defaulted on load. -/
structure Package where
  Name : String
  Fields : List (String × JsonValue)
  hint : ShapeHint
  raw : String

/-- Version-only package, as produced for `name: "version"` object
entries (mirrors `NewVersionOnlyPackage` used by the tests). -/
def NewVersionOnlyPackage (name version : String) : Package :=
  ⟨name, [("version", .str version)], .bareString, ""⟩

/-- Structured package, as produced for `name: {...}` object entries
(mirrors `NewPackage` used by the tests). -/
def NewPackage (name : String) (fields : List (String × JsonValue)) : Package :=
  ⟨name, fields, .mapValue, ""⟩

/-- Modelled from the spec: expansion of one legacy-list string (spec
4.6(a)): split via the VersionedNameSplitter, default the version to
"latest" when absent, tag as legacy-list. -/
def packageFromLegacyString (s : String) : Package :=
  let nv := parseVersionedName s
  ⟨nv.1, [("version", .str (if nv.2 = "" then "latest" else nv.2))], .legacyList, s⟩

/-- Expansion of the whole legacy array form (mirrors
`packagesFromLegacyList` used by the tests). -/
def packagesFromLegacyList (ss : List String) : List Package :=
  ss.map packageFromLegacyString

/-- Top-level surface shape of the packages field, retained on load so an
empty collection still re-serializes in its original form. -/
inductive TopShape where
  | arrShape
  | objShape
  deriving DecidableEq

/-- Ordered collection of package declarations plus the retained
top-level shape metadata (spec 3, `PackageList`). -/
structure PackagesMutator where
  collection : List Package
  topShape : TopShape

/-- Modelled from the spec: loading one element of the legacy array form;
only strings are accepted there. -/
def loadLegacyItem : JsonValue → Option Package
  | .str s => some (packageFromLegacyString s)
  | _ => none

/-- Loads every element of a legacy array, failing fast on a malformed
element (spec 7: no partial load is accepted). -/
def loadLegacyItems : List JsonValue → Option (List Package)
  | [] => some []
  | v :: rest =>
    match loadLegacyItem v, loadLegacyItems rest with
    | some p, some ps => some (p :: ps)
    | _, _ => none

/-- Modelled from the spec: loading one object entry, which may map a
name to a bare version string or to a structured record (spec 4.6(b,c)). -/
def loadObjectEntry : String × JsonValue → Option Package
  | (k, .str v) => some (NewVersionOnlyPackage k v)
  | (k, .obj fs) => some (NewPackage k fs)
  | _ => none

/-- Loads every entry of the object form, failing fast on a malformed
entry. -/
def loadObjectEntries : List (String × JsonValue) → Option (List Package)
  | [] => some []
  | e :: rest =>
    match loadObjectEntry e, loadObjectEntries rest with
    | some p, some ps => some (p :: ps)
    | _, _ => none

/-- Modelled from the spec: constructing the package collection from the
raw packages field in whichever surface shape it appears (spec 4.6),
retaining the top-level shape. -/
def loadPackages : JsonValue → Option PackagesMutator
  | .arr items => (loadLegacyItems items).map (fun ps => ⟨ps, .arrShape⟩)
  | .obj entries => (loadObjectEntries entries).map (fun ps => ⟨ps, .objShape⟩)
  | _ => none

/-- Modelled from the spec: per-entry object serialization rule (spec
4.6): shorthand `name: "v"` exactly when the field set is `{version: v}`
and the hint is the bare-string one; otherwise the full record. -/
def serializeObjectEntry (p : Package) : String × JsonValue :=
  match p.hint, p.Fields with
  | .bareString, [("version", .str v)] => (p.Name, .str v)
  | _, _ => (p.Name, .obj p.Fields)

/-- Modelled from the spec: a legacy-list entry re-serializes through its
retained document handle, rendering the original declaration string. -/
def serializeLegacyEntry (p : Package) : JsonValue := .str p.raw

/-- Modelled from the spec: serialization of an unmodified collection
back into the packages field, using the retained top-level shape (array
stays array, object stays object). -/
def serializePackages (m : PackagesMutator) : JsonValue :=
  match m.topShape with
  | .arrShape => .arr (m.collection.map serializeLegacyEntry)
  | .objShape => .obj (m.collection.map serializeObjectEntry)

/-! ## StructuredReferenceParser (spec 4.3, external collaborator) -/

/-- Scheme family of a structured reference. -/
inductive RefKind where
  | indirect
  | path
  | github
  deriving DecidableEq

/-- Structured flake-like reference: scheme family plus the canonical
remainder of the reference string. -/
structure FlakeRef where
  kind : RefKind
  rest : String
  deriving DecidableEq

/-- A structured reference together with an attribute path (empty when
absent). -/
structure FlakeInstallable where
  ref : FlakeRef
  attrPath : String
  deriving DecidableEq

/-- Modelled from the spec: the reference part of the external
StructuredReferenceParser (spec 4.3), absent from the sources.  Success
and failure follow the recognized scheme words of spec 4.2 as exercised
by the tests: `./` and `/` path prefixes, the `flake:`/`path:`/`github:`
scheme words, bare scheme-free names as indirect references, and failure
on any unrecognized scheme word. -/
def parseFlakeRef (cs : List Char) : Option FlakeRef :=
  if cs.isEmpty then none
  else if "./".data.isPrefixOf cs then some ⟨.path, cs.asString⟩
  else if "/".data.isPrefixOf cs then some ⟨.path, cs.asString⟩
  else if "flake:".data.isPrefixOf cs then some ⟨.indirect, (cs.drop 6).asString⟩
  else if "path:".data.isPrefixOf cs then some ⟨.path, (cs.drop 5).asString⟩
  else if "github:".data.isPrefixOf cs then some ⟨.github, (cs.drop 7).asString⟩
  else if cs.contains ':' then none
  else some ⟨.indirect, cs.asString⟩

/-- Modelled from the spec: the external structured-reference parser over
a whole installable string, splitting off the attribute path at the first
`#` (spec 4.3). -/
def parseFlakeInstallable (s : String) : Option FlakeInstallable :=
  let pre := s.data.takeWhile (fun c => c != '#')
  let suf := s.data.dropWhile (fun c => c != '#')
  (parseFlakeRef pre).map (fun r => ⟨r, suf.tail.asString⟩)

/-- Mirrors the test helper of the same name: the parsed form of a flake
installable string. -/
def mustFlake (s : String) : Option FlakeInstallable := parseFlakeInstallable s

/-! ## InstallableSyntaxDetector (spec 4.2) -/

/-- Resolution domain of an input string (spec 4.2). -/
inductive InstallKind where
  | empty
  | externalRegistry
  | structuredReference
  | plainName
  deriving DecidableEq

/-- Scheme prefix of the external tool registry. -/
def runxPrefix : List Char := "runx:".data

/-- Recognized structured-locator prefixes (spec 4.2). -/
def structuredPrefixes : List (List Char) :=
  ["flake:".data, "path:".data, "github:".data, "./".data, "/".data]

/-- Modelled from the spec: a string signals structured-reference intent
when it carries a recognized structured-locator prefix or contains the
attribute-path separator anywhere (spec 4.2). -/
def isStructuredReferenceLike (cs : List Char) : Bool :=
  structuredPrefixes.any (fun p => p.isPrefixOf cs) || cs.contains '#'

/-- Modelled from the spec: InstallableSyntaxDetector (spec 4.2),
classifying an input into exactly one resolution domain. -/
def detectInstallKind (s : String) : InstallKind :=
  if s.data.isEmpty then .empty
  else if runxPrefix.isPrefixOf s.data then .externalRegistry
  else if isStructuredReferenceLike s.data then .structuredReference
  else .plainName

/-! ## ExternalRegistryRefParser (spec 4.4) -/

/-- External tool-registry reference. -/
structure PkgRef where
  Owner : String
  Repo : String
  Version : String
  deriving DecidableEq

/-- Modelled from the spec: ExternalRegistryRefParser (spec 4.4) applied
to the text after the scheme prefix: split owner and repo on the path
separator, extract an optional version from the remainder via the
VersionedNameSplitter, default the version to "latest", and fail when
owner or repo is missing. -/
def parsePkgRef (cs : List Char) : Option PkgRef :=
  let owner := cs.takeWhile (fun c => c != '/')
  let rest := (cs.dropWhile (fun c => c != '/')).tail
  if owner.isEmpty then none
  else if rest.isEmpty then none
  else
    let rv := parseVersionedName rest.asString
    some ⟨owner.asString, rv.1, if rv.2 = "" then "latest" else rv.2⟩

/-! ## PackageSpecResolver (spec 4.5) -/

/-- Resolution result for one declaration string (spec 3).  Optional
fields model the Go zero values: a `none` field is an unpopulated one. -/
structure PackageSpec where
  Name : String := ""
  Version : String := ""
  Installable : Option FlakeInstallable := none
  AttrPathInstallable : Option FlakeInstallable := none
  RunX : Option PkgRef := none
  deriving DecidableEq

/-- Modelled from the spec: PackageSpecResolver (spec 4.5), the
implementation being absent from the sources.  Classify the raw string,
then: empty input yields the zero value; external-registry input carries
only `RunX`; structured input carries only `Installable`, degrading to
the zero value when the structured parse fails; a plain name is split
into name and version and resolved in normal mode (both installables
attempted, version defaulting to "latest") or legacy-pin mode (attribute
path only, against the pinned revision).  On the plain-name path the
structured parse of the name is attempted and the field is simply left
unpopulated when it fails, matching `TestParsePackageSpec`. -/
def ParsePackageSpec (raw nixpkgsCommit : String) : PackageSpec :=
  match detectInstallKind raw with
  | .empty => {}
  | .externalRegistry =>
    match parsePkgRef (raw.data.drop 5) with
    | some r => { RunX := some r }
    | none => {}
  | .structuredReference =>
    match parseFlakeInstallable raw with
    | some i => { Installable := some i }
    | none => {}
  | .plainName =>
    let nv := parseVersionedName raw
    if nixpkgsCommit = "" then
      if nv.2 = "" then
        { Name := nv.1, Version := "latest",
          Installable := parseFlakeInstallable nv.1,
          AttrPathInstallable := parseFlakeInstallable ("nixpkgs#" ++ nv.1) }
      else
        { Name := nv.1, Version := nv.2,
          Installable := parseFlakeInstallable raw,
          AttrPathInstallable := parseFlakeInstallable ("nixpkgs#" ++ raw) }
    else
      if nv.2 = "" then
        { AttrPathInstallable :=
            parseFlakeInstallable ("nixpkgs/" ++ nixpkgsCommit ++ "#" ++ raw) }
      else
        { Name := nv.1, Version := nv.2,
          AttrPathInstallable :=
            parseFlakeInstallable ("nixpkgs/" ++ nixpkgsCommit ++ "#" ++ raw) }

/-! Validation of the model against `TestJsonifyConfigPackages` rows. -/

example : loadPackages (.arr []) = some ⟨[], .arrShape⟩ := rfl

example : loadPackages (.obj []) = some ⟨[], .objShape⟩ := rfl

example :
    loadPackages (.arr [.str "python", .str "hello@latest", .str "go@1.20"]) =
      some ⟨packagesFromLegacyList ["python", "hello@latest", "go@1.20"], .arrShape⟩ := rfl

example :
    loadPackages (.obj [("python", .str "latest"), ("go", .str "1.20")]) =
      some ⟨[NewVersionOnlyPackage "python" "latest", NewVersionOnlyPackage "go" "1.20"],
        .objShape⟩ := rfl

example :
    loadPackages (.obj [("python", .obj [("version", .str "latest")])]) =
      some ⟨[NewPackage "python" [("version", .str "latest")]], .objShape⟩ := rfl

example :
    loadPackages (.obj [("go", .str "1.20"), ("emacs", .str "latest"),
        ("python", .obj [("version", .str "latest")])]) =
      some ⟨[NewVersionOnlyPackage "go" "1.20", NewVersionOnlyPackage "emacs" "latest",
        NewPackage "python" [("version", .str "latest")]], .objShape⟩ := rfl

/-! Validation of the splitter against `TestParseVersionedName` rows. -/

example : parseVersionedName "python" = ("python", "") := by decide
example : parseVersionedName "python@latest" = ("python", "latest") := by decide
example : parseVersionedName "python@1.2.3" = ("python", "1.2.3") := by decide
example : parseVersionedName "emacsPackages.@@latest" = ("emacsPackages.@", "latest") := by decide
example : parseVersionedName "emacsPackages.@" = ("emacsPackages.@", "") := by decide
example : parseVersionedName "path:my-php-flake#hello" = ("path:my-php-flake#hello", "") := by
  decide
example : parseVersionedName "github:F1bonacc1/process-compose/v0.43.1" =
    ("github:F1bonacc1/process-compose/v0.43.1", "") := by decide

/-! Validation of the resolver against `TestParsePackageSpec` rows. -/

example : ParsePackageSpec "" "" = {} := by decide
example : ParsePackageSpec "mail:nixpkgs#go" "" = {} := by decide

example : ParsePackageSpec "go" "" =
    { Name := "go", Version := "latest", Installable := mustFlake "flake:go",
      AttrPathInstallable := mustFlake "nixpkgs#go" } := by decide
example : ParsePackageSpec "go@latest" "" =
    { Name := "go", Version := "latest", Installable := mustFlake "flake:go@latest",
      AttrPathInstallable := mustFlake "nixpkgs#go@latest" } := by decide
example : ParsePackageSpec "go@1.22.0" "" =
    { Name := "go", Version := "1.22.0", Installable := mustFlake "flake:go@1.22.0",
      AttrPathInstallable := mustFlake "nixpkgs#go@1.22.0" } := by decide

example : ParsePackageSpec "emacsPackages.@@latest" "" =
    { Name := "emacsPackages.@", Version := "latest",
      Installable := mustFlake "flake:emacsPackages.@@latest",
      AttrPathInstallable := mustFlake "nixpkgs#emacsPackages.@@latest" } := by decide
example : ParsePackageSpec "emacsPackages.@" "" =
    { Name := "emacsPackages.@", Version := "latest",
      Installable := mustFlake "flake:emacsPackages.@",
      AttrPathInstallable := mustFlake "nixpkgs#emacsPackages.@" } := by decide
example : ParsePackageSpec "@angular/cli" "" =
    { Name := "@angular/cli", Version := "latest",
      Installable := mustFlake "flake:@angular/cli",
      AttrPathInstallable := mustFlake "nixpkgs#@angular/cli" } := by decide
example : ParsePackageSpec "nodePackages.@angular/cli" "" =
    { Name := "nodePackages.", Version := "angular/cli",
      Installable := mustFlake "flake:nodePackages.@angular/cli",
      AttrPathInstallable := mustFlake "nixpkgs#nodePackages.@angular/cli" } := by decide

example : ParsePackageSpec "nixpkgs#go" "" =
    { Installable := mustFlake "flake:nixpkgs#go" } := by decide
example : ParsePackageSpec "flake:nixpkgs" "" =
    { Installable := mustFlake "flake:nixpkgs" } := by decide
example : ParsePackageSpec "flake:nixpkgs#go" "" =
    { Installable := mustFlake "flake:nixpkgs#go" } := by decide
example : ParsePackageSpec "./my-php-flake" "" =
    { Installable := mustFlake "path:./my-php-flake" } := by decide
example : ParsePackageSpec "./my-php-flake#hello" "" =
    { Installable := mustFlake "path:./my-php-flake#hello" } := by decide
example : ParsePackageSpec "/my-php-flake" "" =
    { Installable := mustFlake "path:/my-php-flake" } := by decide
example : ParsePackageSpec "/my-php-flake#hello" "" =
    { Installable := mustFlake "path:/my-php-flake#hello" } := by decide
example : ParsePackageSpec "path:my-php-flake" "" =
    { Installable := mustFlake "path:my-php-flake" } := by decide
example : ParsePackageSpec "path:my-php-flake#hello" "" =
    { Installable := mustFlake "path:my-php-flake#hello" } := by decide
example : ParsePackageSpec "github:F1bonacc1/process-compose/v0.43.1" "" =
    { Installable := mustFlake "github:F1bonacc1/process-compose/v0.43.1" } := by decide

example : ParsePackageSpec "mail:nixpkgs" "" =
    { Name := "mail:nixpkgs", Version := "latest",
      AttrPathInstallable := mustFlake "nixpkgs#mail:nixpkgs" } := by decide

example : ParsePackageSpec "runx:golangci/golangci-lint" "" =
    { RunX := some ⟨"golangci", "golangci-lint", "latest"⟩ } := by decide
example : ParsePackageSpec "runx:golangci/golangci-lint@1.2.3" "" =
    { RunX := some ⟨"golangci", "golangci-lint", "1.2.3"⟩ } := by decide

example : ParsePackageSpec "golangci/golangci-lint" "" =
    { Name := "golangci/golangci-lint", Version := "latest",
      Installable := mustFlake "flake:golangci/golangci-lint",
      AttrPathInstallable := mustFlake "nixpkgs#golangci/golangci-lint" } := by decide
example : ParsePackageSpec "golangci/golangci-lint@1.2.3" "" =
    { Name := "golangci/golangci-lint", Version := "1.2.3",
      Installable := mustFlake "flake:golangci/golangci-lint@1.2.3",
      AttrPathInstallable := mustFlake "nixpkgs#golangci/golangci-lint@1.2.3" } := by decide

/-! Validation against `TestParseDeprecatedPackageSpec` rows
(pin "nixpkgs-unstable"). -/

example : ParsePackageSpec "" "nixpkgs-unstable" = {} := by decide
example : ParsePackageSpec "go@latest" "nixpkgs-unstable" =
    { Name := "go", Version := "latest",
      AttrPathInstallable := mustFlake "nixpkgs/nixpkgs-unstable#go@latest" } := by decide
example : ParsePackageSpec "go@1.22.0" "nixpkgs-unstable" =
    { Name := "go", Version := "1.22.0",
      AttrPathInstallable := mustFlake "nixpkgs/nixpkgs-unstable#go@1.22.0" } := by decide
example : ParsePackageSpec "go" "nixpkgs-unstable" =
    { AttrPathInstallable := mustFlake "nixpkgs/nixpkgs-unstable#go" } := by decide
example : ParsePackageSpec "cachix" "nixpkgs-unstable" =
    { AttrPathInstallable := mustFlake "nixpkgs/nixpkgs-unstable#cachix" } := by decide
example : ParsePackageSpec "flake:cachix" "nixpkgs-unstable" =
    { Installable := mustFlake "flake:cachix#" } := by decide
example : ParsePackageSpec "./flake" "nixpkgs-unstable" =
    { Installable := mustFlake "path:./flake" } := by decide
example : ParsePackageSpec "path:flake" "nixpkgs-unstable" =
    { Installable := mustFlake "path:flake" } := by decide
example : ParsePackageSpec "nixpkgs#go" "nixpkgs-unstable" =
    { Installable := mustFlake "nixpkgs#go" } := by decide
example : ParsePackageSpec "nixpkgs/branch#go" "nixpkgs-unstable" =
    { Installable := mustFlake "nixpkgs/branch#go" } := by decide
example : ParsePackageSpec "runx:golangci/golangci-lint" "nixpkgs-unstable" =
    { RunX := some ⟨"golangci", "golangci-lint", "latest"⟩ } := by decide

/-! ## Supporting lemmas -/

/-- Character data of an appended string is the appended character data. -/
theorem data_append (a b : String) : (a ++ b).data = a.data ++ b.data := rfl

/-- A string is empty exactly when its character data is. -/
theorem eq_empty_iff_data (s : String) : s = "" ↔ s.data = [] := by
  constructor
  · intro h; rw [h]
  · intro h; cases s; simp_all

/-- Absence of the character is exactly failure of the last-index search. -/
theorem lastIndexOfChar_eq_none_iff (c : Char) (l : List Char) :
    lastIndexOfChar c l = none ↔ c ∉ l := by
  induction l with
  | nil => simp [lastIndexOfChar]
  | cons x xs ih =>
    simp only [lastIndexOfChar]
    cases h : lastIndexOfChar c xs with
    | some i => simp [h, ← ih, List.mem_cons]
    | none =>
      have hx : c ∉ xs := ih.mp h
      by_cases hxc : x = c <;> simp [hxc, hx, List.mem_cons]
      exact fun hcx => hxc hcx.symm

/-- Last-index search distributes over append when the right part hits. -/
theorem lastIndexOfChar_append_right (c : Char) (l r : List Char) (i : Nat)
    (h : lastIndexOfChar c r = some i) :
    lastIndexOfChar c (l ++ r) = some (l.length + i) := by
  induction l with
  | nil => simpa using h
  | cons x xs ih => simp [lastIndexOfChar, ih, Nat.succ_add]

/-- A successful last-index search returns an occurrence after which the
character no longer occurs. -/
theorem lastIndexOfChar_spec (c : Char) (l : List Char) (i : Nat)
    (h : lastIndexOfChar c l = some i) :
    l.drop i ≠ [] ∧ l[i]? = some c ∧ c ∉ l.drop (i + 1) := by
  induction l generalizing i with
  | nil => simp [lastIndexOfChar] at h
  | cons x xs ih =>
    simp only [lastIndexOfChar] at h
    cases h' : lastIndexOfChar c xs with
    | some j =>
      rw [h'] at h
      obtain rfl : j + 1 = i := by simpa using h
      obtain ⟨hd, hg, hm⟩ := ih j h'
      exact ⟨by simpa using hd, by simpa using hg, by simpa using hm⟩
    | none =>
      rw [h'] at h
      by_cases hxc : x = c
      · simp only [hxc, if_pos rfl] at h
        obtain rfl : 0 = i := by simpa using h
        refine ⟨by simp, by simp [hxc], ?_⟩
        simpa using (lastIndexOfChar_eq_none_iff c xs).mp h'
      · simp [hxc] at h

/-- The take-while phase passes over a wholly satisfying left part. -/
theorem takeWhile_append_pos (p : Char → Bool) (l r : List Char)
    (h : ∀ c ∈ l, p c = true) :
    (l ++ r).takeWhile p = l ++ r.takeWhile p := by
  induction l with
  | nil => simp
  | cons x xs ih =>
    have hx : p x = true := h x (List.mem_cons_self x xs)
    simp [List.takeWhile_cons, hx, ih fun c hc => h c (List.mem_cons_of_mem x hc)]

/-- The drop-while phase passes over a wholly satisfying left part. -/
theorem dropWhile_append_pos (p : Char → Bool) (l r : List Char)
    (h : ∀ c ∈ l, p c = true) :
    (l ++ r).dropWhile p = r.dropWhile p := by
  induction l with
  | nil => simp
  | cons x xs ih =>
    have hx : p x = true := h x (List.mem_cons_self x xs)
    simp [List.dropWhile_cons, hx, ih fun c hc => h c (List.mem_cons_of_mem x hc)]

/-- Membership search distributes over an appended list. -/
theorem contains_append (a : Char) (l r : List Char) :
    (l ++ r).contains a = (l.contains a || r.contains a) := by
  induction l with
  | nil => simp
  | cons x xs ih =>
    by_cases hx : x = a <;> simp_all [List.contains_cons, Bool.or_assoc]

/-- A list is a Boolean prefix of itself followed by anything. -/
theorem isPrefixOf_append_self (P r : List Char) : P.isPrefixOf (P ++ r) = true := by
  induction P with
  | nil => simp [List.isPrefixOf]
  | cons x xs ih => simp [List.isPrefixOf, ih]

/-- A Boolean prefix of the take-while part is a Boolean prefix of the
whole list. -/
theorem isPrefixOf_of_isPrefixOf_takeWhile (P l : List Char) (p : Char → Bool)
    (h : P.isPrefixOf (l.takeWhile p) = true) : P.isPrefixOf l = true := by
  induction l generalizing P with
  | nil => simpa using h
  | cons x xs ih =>
    cases P with
    | nil => simp [List.isPrefixOf]
    | cons a as =>
      by_cases hx : p x = true
      · rw [List.takeWhile_cons, if_pos hx] at h
        simp only [List.isPrefixOf, Bool.and_eq_true] at h ⊢
        exact ⟨h.1, ih as h.2⟩
      · rw [List.takeWhile_cons, if_neg hx] at h
        simp [List.isPrefixOf] at h

/-- Serializing the loaded legacy array reproduces each original string
through the retained per-entry document handle. -/
theorem loadLegacyItems_inv : ∀ (items : List JsonValue) (ps : List Package),
    loadLegacyItems items = some ps → ps.map serializeLegacyEntry = items := by
  intro items
  induction items with
  | nil =>
    intro ps h
    simp only [loadLegacyItems, Option.some.injEq] at h
    simp [← h]
  | cons v rest ih =>
    intro ps h
    simp only [loadLegacyItems] at h
    cases v with
    | str s =>
      simp only [loadLegacyItem] at h
      cases hr : loadLegacyItems rest with
      | none => rw [hr] at h; simp at h
      | some qs =>
        rw [hr] at h
        simp only [Option.some.injEq] at h
        subst h
        simp [serializeLegacyEntry, packageFromLegacyString, ih qs hr]
    | arr l => simp [loadLegacyItem] at h
    | obj l => simp [loadLegacyItem] at h

/-- Serializing the loaded object form reproduces each original entry:
bare version strings stay shorthand, records stay records. -/
theorem loadObjectEntries_inv : ∀ (entries : List (String × JsonValue)) (ps : List Package),
    loadObjectEntries entries = some ps → ps.map serializeObjectEntry = entries := by
  intro entries
  induction entries with
  | nil =>
    intro ps h
    simp only [loadObjectEntries, Option.some.injEq] at h
    simp [← h]
  | cons e rest ih =>
    intro ps h
    simp only [loadObjectEntries] at h
    obtain ⟨k, v⟩ := e
    cases v with
    | str s =>
      simp only [loadObjectEntry] at h
      cases hr : loadObjectEntries rest with
      | none => rw [hr] at h; simp at h
      | some qs =>
        rw [hr] at h
        simp only [Option.some.injEq] at h
        subst h
        simp [serializeObjectEntry, NewVersionOnlyPackage, ih qs hr]
    | arr l => simp [loadObjectEntry] at h
    | obj fs =>
      simp only [loadObjectEntry] at h
      cases hr : loadObjectEntries rest with
      | none => rw [hr] at h; simp at h
      | some qs =>
        rw [hr] at h
        simp only [Option.some.injEq] at h
        subst h
        simp [serializeObjectEntry, NewPackage, ih qs hr]

/-- C1: for every document whose packages field is in any of the three
surface shapes (array of strings, object of version strings, object of
structured records, or a per-key mixture), loading the field and
serializing it back without any mutation reproduces the original
canonical document value exactly. -/
theorem packages_roundtrip (d : JsonValue) (m : PackagesMutator)
    (h : loadPackages d = some m) : serializePackages m = d := by
  cases d with
  | str s => simp [loadPackages] at h
  | arr items =>
    simp only [loadPackages] at h
    cases hl : loadLegacyItems items with
    | none => rw [hl] at h; simp at h
    | some ps =>
      rw [hl] at h
      simp only [Option.map_some', Option.some.injEq] at h
      subst h
      simp [serializePackages, loadLegacyItems_inv items ps hl]
  | obj entries =>
    simp only [loadPackages] at h
    cases hl : loadObjectEntries entries with
    | none => rw [hl] at h; simp at h
    | some ps =>
      rw [hl] at h
      simp only [Option.map_some', Option.some.injEq] at h
      subst h
      simp [serializePackages, loadObjectEntries_inv entries ps hl]

/-- C1 witness: the specification's example object document, with two
version-only entries, round-trips to the identical object form. -/
theorem packages_roundtrip_witness :
    serializePackages ⟨[NewVersionOnlyPackage "python" "latest",
        NewVersionOnlyPackage "go" "1.20"], .objShape⟩ =
      .obj [("python", .str "latest"), ("go", .str "1.20")] :=
  packages_roundtrip (.obj [("python", .str "latest"), ("go", .str "1.20")]) _ rfl

/-- C10: the empty array and the empty object both load to the same
in-memory value, an empty package collection, yet each unmodified result
serializes back to its own original surface form: the surface shape is
retained metadata, not derived from the collection contents. -/
theorem emptyShapes_retained :
    loadPackages (.arr []) = some ⟨[], .arrShape⟩ ∧
    loadPackages (.obj []) = some ⟨[], .objShape⟩ ∧
    (PackagesMutator.mk [] .arrShape).collection =
      (PackagesMutator.mk [] .objShape).collection ∧
    serializePackages ⟨[], .arrShape⟩ = .arr [] ∧
    serializePackages ⟨[], .objShape⟩ = .obj [] :=
  ⟨rfl, rfl, rfl, rfl, rfl⟩

/-- C4: for every string, parseVersionedName returns the string itself
with an empty version when it contains no at sign, when the last at sign
sits at index 0, or when the last at sign is the final character;
otherwise it splits at the last occurrence (an index holding an at sign
with none occurring later), so "x@@latest" splits to ("x@", "latest") and
"a@b@c" splits to ("a@b", "c"); no case or whitespace normalization is
applied. -/
theorem parseVersionedName_split_spec (s : String) :
    ('@' ∉ s.data → parseVersionedName s = (s, "")) ∧
    (lastIndexOfChar '@' s.data = some 0 → parseVersionedName s = (s, "")) ∧
    (∀ i, lastIndexOfChar '@' s.data = some i → i + 1 = s.data.length →
      parseVersionedName s = (s, "")) ∧
    (∀ i, lastIndexOfChar '@' s.data = some i →
      s.data[i]? = some '@' ∧ '@' ∉ s.data.drop (i + 1) ∧
      (i ≠ 0 → i + 1 ≠ s.data.length →
        parseVersionedName s =
          ((s.data.take i).asString, (s.data.drop (i + 1)).asString))) ∧
    parseVersionedName "x@@latest" = ("x@", "latest") ∧
    parseVersionedName "a@b@c" = ("a@b", "c") := by
  refine ⟨?_, ?_, ?_, ?_, by decide, by decide⟩
  · intro h
    unfold parseVersionedName
    rw [(lastIndexOfChar_eq_none_iff _ _).mpr h]
  · intro h
    unfold parseVersionedName
    rw [h]
    simp
  · intro i h hi
    unfold parseVersionedName
    rw [h]
    by_cases h0 : i = 0 <;> simp [h0, hi]
  · intro i h
    obtain ⟨_, hg, hm⟩ := lastIndexOfChar_spec '@' s.data i h
    refine ⟨hg, hm, ?_⟩
    intro h0 hlen
    have hlen' : i + 1 ≠ s.length := hlen
    unfold parseVersionedName
    rw [h]
    simp [h0, hlen, hlen']

/-- C4 witness: a name without an at sign is returned untouched. -/
theorem parseVersionedName_split_spec_witness :
    parseVersionedName "python" = ("python", "") :=
  (parseVersionedName_split_spec "python").1 (by decide)

/-- Prefixing a name with the default index and the attribute-path
separator always parses: the reference part is the literal default index
and the attribute path is the name itself. -/
theorem parseFlakeInstallable_nixpkgsHash (n : String) :
    parseFlakeInstallable ("nixpkgs#" ++ n) = some ⟨⟨.indirect, "nixpkgs"⟩, n⟩ := rfl

/-- C7: for every input classified as a structured reference that parses
successfully, resolve populates the structured installable only, leaving
name, version, attribute-path installable and external reference unset,
whatever the legacy pin is. -/
theorem structured_success_only_installable (s pin : String) (i : FlakeInstallable)
    (hk : detectInstallKind s = .structuredReference)
    (hp : parseFlakeInstallable s = some i) :
    ParsePackageSpec s pin = { Installable := some i } := by
  simp only [ParsePackageSpec, hk, hp]

/-- C7 witness: a scheme-word flake reference resolves to its structured
installable only, legacy pin supplied. -/
theorem structured_success_only_installable_witness :
    ParsePackageSpec "flake:nixpkgs" "nixpkgs-unstable" =
      { Installable := some ⟨⟨.indirect, "nixpkgs"⟩, ""⟩ } :=
  structured_success_only_installable "flake:nixpkgs" "nixpkgs-unstable"
    ⟨⟨.indirect, "nixpkgs"⟩, ""⟩ (by decide) (by decide)

/-- C9: for every input carrying the external-tool-registry scheme
prefix, the resolution result is the same for every legacy-pin value. -/
theorem runx_pin_invariant (s pin1 pin2 : String)
    (h : runxPrefix.isPrefixOf s.data = true) :
    ParsePackageSpec s pin1 = ParsePackageSpec s pin2 := by
  have hne : s.data.isEmpty = false := by
    cases hd : s.data with
    | nil => rw [hd] at h; simp [runxPrefix, List.isPrefixOf] at h
    | cons a l => simp
  unfold ParsePackageSpec detectInstallKind
  rw [hne, h]
  simp

/-- C9 witness: an external-registry input resolves identically under the
empty pin and a non-empty pin. -/
theorem runx_pin_invariant_witness :
    ParsePackageSpec "runx:golangci/golangci-lint" "" =
      ParsePackageSpec "runx:golangci/golangci-lint" "nixpkgs-unstable" :=
  runx_pin_invariant "runx:golangci/golangci-lint" "" "nixpkgs-unstable" (by decide)

/-- C6: the resolver is total: every raw input and every legacy-pin value
map to some PackageSpec value, and sub-parser failures on the structured
and external-registry paths are never surfaced, degrading instead to the
zero-value PackageSpec. -/
theorem resolver_totality (raw pin : String) :
    ∃ ps : PackageSpec, ParsePackageSpec raw pin = ps ∧
      ((detectInstallKind raw = .structuredReference ∧
          parseFlakeInstallable raw = none) → ps = {}) ∧
      ((detectInstallKind raw = .externalRegistry ∧
          parsePkgRef (raw.data.drop 5) = none) → ps = {}) := by
  refine ⟨ParsePackageSpec raw pin, rfl, ?_, ?_⟩
  · rintro ⟨hk, hp⟩
    simp only [ParsePackageSpec, hk, hp]
  · rintro ⟨hk, hp⟩
    simp only [ParsePackageSpec, hk, hp]

/-- C6 witness: a structured-looking input with an unrecognized scheme
degrades to the zero-value PackageSpec rather than an error. -/
theorem resolver_totality_witness : ParsePackageSpec "mail:nixpkgs#go" "" = {} := by
  obtain ⟨ps, heq, hstruct, _⟩ := resolver_totality "mail:nixpkgs#go" ""
  rw [heq]
  exact hstruct ⟨by decide, by decide⟩

/-- Failed membership search means the element is absent. -/
theorem not_mem_of_contains_false (a : Char) (l : List Char)
    (h : l.contains a = false) : a ∉ l := by
  intro hm
  have h2 : l.contains a = true := List.elem_iff.mpr hm
  rw [h] at h2
  exact absurd h2 (by simp)

/-- Splitting never fires on an at-free string. -/
theorem parseVersionedName_no_at (t : String) (h : t.data.contains '@' = false) :
    parseVersionedName t = (t, "") := by
  unfold parseVersionedName
  rw [(lastIndexOfChar_eq_none_iff _ _).mpr (not_mem_of_contains_false _ _ h)]

/-- Splitting a name and an at-free non-empty version joined by an at
sign recovers the two parts. -/
theorem parseVersionedName_append_at (n v : String) (hn : n ≠ "") (hv : v ≠ "")
    (hvat : v.data.contains '@' = false) :
    parseVersionedName (n ++ "@" ++ v) = (n, v) := by
  have hvm : ('@' : Char) ∉ v.data := not_mem_of_contains_false _ _ hvat
  have hdata : (n ++ "@" ++ v).data = n.data ++ '@' :: v.data := by
    simp [data_append]
  have hv0 : lastIndexOfChar '@' ('@' :: v.data) = some 0 := by
    simp [lastIndexOfChar, (lastIndexOfChar_eq_none_iff '@' v.data).mpr hvm]
  have hlast : lastIndexOfChar '@' (n.data ++ '@' :: v.data) = some n.data.length := by
    simpa using lastIndexOfChar_append_right '@' n.data ('@' :: v.data) 0 hv0
  have hn0 : n.data.length ≠ 0 := by
    intro h0
    exact hn ((eq_empty_iff_data n).mpr (List.length_eq_zero.mp h0))
  have hvlen : v.data.length ≠ 0 := by
    intro h0
    exact hv ((eq_empty_iff_data v).mpr (List.length_eq_zero.mp h0))
  have hlen : n.data.length + 1 ≠ (n.data ++ '@' :: v.data).length := by
    simp only [List.length_append, List.length_cons]
    omega
  have htake : (n.data ++ '@' :: v.data).take n.data.length = n.data :=
    List.take_left n.data ('@' :: v.data)
  have hdrop : (n.data ++ '@' :: v.data).drop (n.data.length + 1) = v.data := by
    have hsplit : n.data ++ '@' :: v.data = (n.data ++ ['@']) ++ v.data := by simp
    rw [hsplit]
    exact List.drop_left' (by simp)
  have hn0' : n.length ≠ 0 := hn0
  have hv0' : v.length ≠ 0 := hvlen
  have hdrop' : (n.data ++ '@' :: v.data).drop (n.length + 1) = v.data := hdrop
  unfold parseVersionedName
  rw [hdata, hlast]
  simp [hn0', hv0', htake, hdrop']
  exact ⟨rfl, rfl⟩

/-- The owner and repo parts of an external reference are recovered from
a path-separated join when the owner is slash-free. -/
theorem parsePkgRef_split (ownerL : List Char) (rest : String)
    (ho : ownerL ≠ []) (hr : rest ≠ "") (hosl : ownerL.contains '/' = false) :
    parsePkgRef (ownerL ++ '/' :: rest.data) =
      some ⟨ownerL.asString, (parseVersionedName rest).1,
        if (parseVersionedName rest).2 = "" then "latest"
        else (parseVersionedName rest).2⟩ := by
  have hall : ∀ c ∈ ownerL, (fun c => c != '/') c = true := by
    intro c hcm
    simp only [bne_iff_ne, ne_eq]
    intro hq
    exact not_mem_of_contains_false '/' ownerL hosl (hq ▸ hcm)
  have htake : (ownerL ++ '/' :: rest.data).takeWhile (fun c => c != '/') = ownerL := by
    rw [takeWhile_append_pos _ _ _ hall]
    simp [List.takeWhile_cons]
  have hdropw : (ownerL ++ '/' :: rest.data).dropWhile (fun c => c != '/') =
      '/' :: rest.data := by
    rw [dropWhile_append_pos _ _ _ hall]
    simp [List.dropWhile_cons]
  have hoe : ownerL.isEmpty = false := by
    cases ownerL with
    | nil => exact absurd rfl ho
    | cons a l => simp
  have hre : rest.data.isEmpty = false := by
    cases hd : rest.data with
    | nil => exact absurd ((eq_empty_iff_data rest).mpr hd) hr
    | cons a l => simp
  unfold parsePkgRef
  rw [htake, hdropw]
  simp only [List.tail_cons, hoe, hre, Bool.false_eq_true, if_false]
  rfl

/-- Attribute-path installables built against a pinned revision always
parse, with the pinned index as the indirect reference and the raw
declaration as the attribute path, for pins free of colons and separators. -/
theorem parseFlakeInstallable_pinned (pin s : String)
    (hc : pin.data.contains ':' = false) (hh : pin.data.contains '#' = false) :
    parseFlakeInstallable ("nixpkgs/" ++ pin ++ "#" ++ s) =
      some ⟨⟨.indirect, "nixpkgs/" ++ pin⟩, s⟩ := by
  have hnotmem : ('#' : Char) ∉ pin.data := not_mem_of_contains_false _ _ hh
  have hdata : ("nixpkgs/" ++ pin ++ "#" ++ s).data
      = ("nixpkgs/".data ++ pin.data) ++ ('#' :: s.data) := by
    simp [data_append]
  have hall : ∀ c ∈ "nixpkgs/".data ++ pin.data, (fun c => c != '#') c = true := by
    intro c hcm
    rcases List.mem_append.mp hcm with h1 | h2
    · have hconc : ∀ x ∈ "nixpkgs/".data, (x != '#') = true := by decide
      exact hconc c h1
    · simp only [bne_iff_ne, ne_eq]
      exact fun hq => hnotmem (hq ▸ h2)
  have htake : (("nixpkgs/".data ++ pin.data) ++ ('#' :: s.data)).takeWhile
      (fun c => c != '#') = "nixpkgs/".data ++ pin.data := by
    rw [takeWhile_append_pos _ _ _ hall]
    simp [List.takeWhile_cons]
  have hdropw : (("nixpkgs/".data ++ pin.data) ++ ('#' :: s.data)).dropWhile
      (fun c => c != '#') = '#' :: s.data := by
    rw [dropWhile_append_pos _ _ _ hall]
    simp [List.dropWhile_cons]
  have hcontains : ("nixpkgs/".data ++ pin.data).contains ':' = false := by
    have hcn : "nixpkgs/".data.contains ':' = false := rfl
    rw [contains_append, hcn, hc]
    rfl
  have e1 : ("nixpkgs/".data ++ pin.data).isEmpty = false := rfl
  have e2 : List.isPrefixOf "./".data ("nixpkgs/".data ++ pin.data) = false := rfl
  have e3 : List.isPrefixOf "/".data ("nixpkgs/".data ++ pin.data) = false := rfl
  have e4 : List.isPrefixOf "flake:".data ("nixpkgs/".data ++ pin.data) = false := rfl
  have e5 : List.isPrefixOf "path:".data ("nixpkgs/".data ++ pin.data) = false := rfl
  have e6 : List.isPrefixOf "github:".data ("nixpkgs/".data ++ pin.data) = false := rfl
  have href : parseFlakeRef ("nixpkgs/".data ++ pin.data)
      = some ⟨.indirect, ("nixpkgs/".data ++ pin.data).asString⟩ := by
    unfold parseFlakeRef
    rw [e1, e2, e3, e4, e5, e6, hcontains]
    simp
  simp only [parseFlakeInstallable]
  rw [hdata, htake, hdropw, href]
  rfl

/-- A Boolean non-prefix of a list is a non-prefix of its take-while part. -/
theorem not_isPrefixOf_takeWhile (P l : List Char) (p : Char → Bool)
    (h : P.isPrefixOf l = false) : P.isPrefixOf (l.takeWhile p) = false := by
  cases hb : P.isPrefixOf (l.takeWhile p) with
  | false => rfl
  | true =>
    have hw := isPrefixOf_of_isPrefixOf_takeWhile P l p hb
    rw [h] at hw
    exact absurd hw (by simp)

/-- C2 counterexample: the input "mail:nixpkgs" is classified as a plain
name, its split yields an empty version, the legacy pin is empty, yet the
structured installable is left unpopulated (only the attribute-path one
is built), refuting the claim that both are populated for every such
input. -/
theorem plainName_both_populated_cex :
    detectInstallKind "mail:nixpkgs" = .plainName ∧
    (parseVersionedName "mail:nixpkgs").2 = "" ∧
    (ParsePackageSpec "mail:nixpkgs" "").Installable = none ∧
    (ParsePackageSpec "mail:nixpkgs" "").AttrPathInstallable.isSome = true := by
  decide

/-- C2 (amended): for every input classified as a plain name whose split
yields an empty version, with the empty legacy pin, resolve sets the
version to "latest" and the name to the split name, always populates the
attribute-path installable from the unversioned name against the default
index, and builds the structured installable by attempting the structured
parse of the unversioned name (without appending the defaulted version):
that field is populated exactly when the parse succeeds. -/
theorem plainName_noVersion_amended (s : String)
    (hk : detectInstallKind s = .plainName)
    (hv : (parseVersionedName s).2 = "") :
    ParsePackageSpec s "" =
      { Name := (parseVersionedName s).1, Version := "latest",
        Installable := parseFlakeInstallable (parseVersionedName s).1,
        AttrPathInstallable :=
          some ⟨⟨.indirect, "nixpkgs"⟩, (parseVersionedName s).1⟩ } := by
  simp only [ParsePackageSpec, hk, hv, parseFlakeInstallable_nixpkgsHash]
  simp

/-- C2 witness: the plain name "go" resolves with defaulted version,
populated structured installable and populated attribute-path
installable. -/
theorem plainName_noVersion_amended_witness :
    ParsePackageSpec "go" "" =
      { Name := (parseVersionedName "go").1, Version := "latest",
        Installable := parseFlakeInstallable (parseVersionedName "go").1,
        AttrPathInstallable :=
          some ⟨⟨.indirect, "nixpkgs"⟩, (parseVersionedName "go").1⟩ } :=
  plainName_noVersion_amended "go" (by decide) (by decide)

/-- C3: for every input that contains the attribute-path separator but
carries none of the recognized structured prefixes and not the
external-registry prefix, while its pre-separator text holds a colon (an
unrecognized scheme word), the resolver classifies it as a structured
reference, the structured parse fails, and resolution returns the
zero-value PackageSpec for every pin: the input is silently dropped,
never falling back to plain-name treatment. -/
theorem unrecognized_scheme_silent_drop (s pin : String)
    (hh : s.data.contains '#' = true)
    (hrunx : runxPrefix.isPrefixOf s.data = false)
    (hp1 : List.isPrefixOf "./".data s.data = false)
    (hp2 : List.isPrefixOf "/".data s.data = false)
    (hp3 : List.isPrefixOf "flake:".data s.data = false)
    (hp4 : List.isPrefixOf "path:".data s.data = false)
    (hp5 : List.isPrefixOf "github:".data s.data = false)
    (hcolon : (s.data.takeWhile (fun c => c != '#')).contains ':' = true) :
    detectInstallKind s = .structuredReference ∧
    parseFlakeInstallable s = none ∧
    ParsePackageSpec s pin = {} := by
  have hne : s.data.isEmpty = false := by
    cases hd : s.data with
    | nil => rw [hd] at hh; exact absurd hh (by simp)
    | cons a l => simp
  have hlike : isStructuredReferenceLike s.data = true := by
    unfold isStructuredReferenceLike
    rw [hh]
    simp
  have hdet : detectInstallKind s = .structuredReference := by
    unfold detectInstallKind
    rw [hne, hrunx, hlike]
    simp
  have q1 := not_isPrefixOf_takeWhile _ _ (fun c => c != '#') hp1
  have q2 := not_isPrefixOf_takeWhile _ _ (fun c => c != '#') hp2
  have q3 := not_isPrefixOf_takeWhile _ _ (fun c => c != '#') hp3
  have q4 := not_isPrefixOf_takeWhile _ _ (fun c => c != '#') hp4
  have q5 := not_isPrefixOf_takeWhile _ _ (fun c => c != '#') hp5
  have hpre_none : parseFlakeRef (s.data.takeWhile (fun c => c != '#')) = none := by
    unfold parseFlakeRef
    cases hemp : (s.data.takeWhile (fun c => c != '#')).isEmpty with
    | true => simp
    | false => rw [q1, q2, q3, q4, q5, hcolon]; simp
  have hpf : parseFlakeInstallable s = none := by
    simp only [parseFlakeInstallable]
    rw [hpre_none]
    rfl
  refine ⟨hdet, hpf, ?_⟩
  simp only [ParsePackageSpec, hdet, hpf]

/-- C3 witness: "mail:nixpkgs#go" is classified structured, its parse
fails, and it resolves to the zero-value PackageSpec under a pin. -/
theorem unrecognized_scheme_silent_drop_witness :
    detectInstallKind "mail:nixpkgs#go" = .structuredReference ∧
    parseFlakeInstallable "mail:nixpkgs#go" = none ∧
    ParsePackageSpec "mail:nixpkgs#go" "nixpkgs-unstable" = {} :=
  unrecognized_scheme_silent_drop "mail:nixpkgs#go" "nixpkgs-unstable" (by decide) (by decide)
    (by decide) (by decide) (by decide) (by decide) (by decide) (by decide)

/-- C5: with a non-empty legacy pin, a plain name without a version
resolves with empty name and version and only the attribute-path
installable, built against the pinned revision from the bare name; a
plain name with a version resolves with name and version set and again
only the attribute-path installable, built against the pinned revision
from the full name-at-version string; for a well-formed pin that
installable is populated, and the structured installable is never set. -/
theorem legacy_pin_suppression (s pin : String)
    (hpin : pin ≠ "")
    (hk : detectInstallKind s = .plainName) :
    ((parseVersionedName s).2 = "" →
      ParsePackageSpec s pin =
        { AttrPathInstallable :=
            parseFlakeInstallable ("nixpkgs/" ++ pin ++ "#" ++ s) }) ∧
    ((parseVersionedName s).2 ≠ "" →
      ParsePackageSpec s pin =
        { Name := (parseVersionedName s).1, Version := (parseVersionedName s).2,
          AttrPathInstallable :=
            parseFlakeInstallable ("nixpkgs/" ++ pin ++ "#" ++ s) }) ∧
    (pin.data.contains ':' = false → pin.data.contains '#' = false →
      (ParsePackageSpec s pin).AttrPathInstallable =
        some ⟨⟨.indirect, "nixpkgs/" ++ pin⟩, s⟩) ∧
    (ParsePackageSpec s pin).Installable = none := by
  refine ⟨?_, ?_, ?_, ?_⟩
  · intro hv
    simp [ParsePackageSpec, hk, hv, hpin]
  · intro hv
    simp [ParsePackageSpec, hk, hv, hpin]
  · intro h1 h2
    by_cases hv : (parseVersionedName s).2 = "" <;>
      simp [ParsePackageSpec, hk, hv, hpin, parseFlakeInstallable_pinned pin s h1 h2]
  · by_cases hv : (parseVersionedName s).2 = "" <;>
      simp [ParsePackageSpec, hk, hv, hpin]

/-- C5 witness: with the deprecated pin set, "go" resolves to only the
pinned attribute-path installable, with empty name and version. -/
theorem legacy_pin_suppression_witness :
    ParsePackageSpec "go" "nixpkgs-unstable" =
      { AttrPathInstallable :=
          parseFlakeInstallable ("nixpkgs/" ++ "nixpkgs-unstable" ++ "#" ++ "go") } ∧
    (ParsePackageSpec "go" "nixpkgs-unstable").AttrPathInstallable =
      some ⟨⟨.indirect, "nixpkgs/" ++ "nixpkgs-unstable"⟩, "go"⟩ :=
  ⟨(legacy_pin_suppression "go" "nixpkgs-unstable" (by decide) (by decide)).1 (by decide),
    (legacy_pin_suppression "go" "nixpkgs-unstable" (by decide) (by decide)).2.2.1
      (by decide) (by decide)⟩

/-- C8: for every external-registry input built as scheme, owner, path
separator, repo and an optional at-version, the parser strips the scheme
prefix, splits owner and repo on the path separator, extracts the
optional version via the versioned-name splitter and defaults it to
"latest" when absent; the resulting PackageSpec carries only the external
reference. -/
theorem runx_external_registry (owner repo ver pin : String)
    (howner : owner ≠ "") (hosl : owner.data.contains '/' = false)
    (hrepo : repo ≠ "") (hrat : repo.data.contains '@' = false)
    (hver : ver ≠ "") (hvat : ver.data.contains '@' = false) :
    ParsePackageSpec ("runx:" ++ owner ++ "/" ++ repo) pin =
      { RunX := some ⟨owner, repo, "latest"⟩ } ∧
    ParsePackageSpec ("runx:" ++ owner ++ "/" ++ repo ++ "@" ++ ver) pin =
      { RunX := some ⟨owner, repo, ver⟩ } := by
  have hodata : owner.data ≠ [] := fun h0 => howner ((eq_empty_iff_data owner).mpr h0)
  have dslash : "/".data = ['/'] := rfl
  have dat : "@".data = ['@'] := rfl
  constructor
  · have hd1 : ("runx:" ++ owner ++ "/" ++ repo).data
        = "runx:".data ++ (owner.data ++ '/' :: repo.data) := by
      simp [data_append, dslash]
    have hne1 : ("runx:" ++ owner ++ "/" ++ repo).data.isEmpty = false := by
      rw [hd1]; rfl
    have hpre1 : runxPrefix.isPrefixOf ("runx:" ++ owner ++ "/" ++ repo).data = true := by
      rw [hd1]; exact isPrefixOf_append_self _ _
    have hdet1 : detectInstallKind ("runx:" ++ owner ++ "/" ++ repo) = .externalRegistry := by
      unfold detectInstallKind
      rw [hne1, hpre1]
      simp
    have hdrop1 : ("runx:" ++ owner ++ "/" ++ repo).data.drop 5
        = owner.data ++ '/' :: repo.data := by
      rw [hd1]; exact List.drop_left' rfl
    have hpv1 : parseVersionedName repo = (repo, "") := parseVersionedName_no_at repo hrat
    have href1 : parsePkgRef (owner.data ++ '/' :: repo.data)
        = some ⟨owner, repo, "latest"⟩ := by
      have h2 := parsePkgRef_split owner.data repo hodata hrepo hosl
      rw [hpv1] at h2
      exact h2
    simp only [ParsePackageSpec, hdet1]
    rw [hdrop1, href1]
  · have hda : (repo ++ "@" ++ ver).data = repo.data ++ '@' :: ver.data := by
      simp [data_append, dat]
    have hreq : (repo ++ "@" ++ ver) ≠ "" := by
      intro h0
      rw [h0] at hda
      exact absurd hda.symm (by simp)
    have hd2 : ("runx:" ++ owner ++ "/" ++ repo ++ "@" ++ ver).data
        = "runx:".data ++ (owner.data ++ '/' :: (repo ++ "@" ++ ver).data) := by
      simp [data_append, dslash, dat]
    have hne2 : ("runx:" ++ owner ++ "/" ++ repo ++ "@" ++ ver).data.isEmpty = false := by
      rw [hd2]; rfl
    have hpre2 : runxPrefix.isPrefixOf
        ("runx:" ++ owner ++ "/" ++ repo ++ "@" ++ ver).data = true := by
      rw [hd2]; exact isPrefixOf_append_self _ _
    have hdet2 : detectInstallKind ("runx:" ++ owner ++ "/" ++ repo ++ "@" ++ ver)
        = .externalRegistry := by
      unfold detectInstallKind
      rw [hne2, hpre2]
      simp
    have hdrop2 : ("runx:" ++ owner ++ "/" ++ repo ++ "@" ++ ver).data.drop 5
        = owner.data ++ '/' :: (repo ++ "@" ++ ver).data := by
      rw [hd2]; exact List.drop_left' rfl
    have hpv2 : parseVersionedName (repo ++ "@" ++ ver) = (repo, ver) :=
      parseVersionedName_append_at repo ver hrepo hver hvat
    have href2 : parsePkgRef (owner.data ++ '/' :: (repo ++ "@" ++ ver).data)
        = some ⟨owner, repo, ver⟩ := by
      have h2 := parsePkgRef_split owner.data (repo ++ "@" ++ ver) hodata hreq hosl
      rw [hpv2] at h2
      simp only [if_neg hver] at h2
      exact h2
    simp only [ParsePackageSpec, hdet2]
    rw [hdrop2, href2]

/-- C8 witness: the documented external-registry example yields exactly
its owner, repo and version in the external reference, under a pin. -/
theorem runx_external_registry_witness :
    ParsePackageSpec ("runx:" ++ "golangci" ++ "/" ++ "golangci-lint") "nixpkgs-unstable" =
      { RunX := some ⟨"golangci", "golangci-lint", "latest"⟩ } ∧
    ParsePackageSpec ("runx:" ++ "golangci" ++ "/" ++ "golangci-lint" ++ "@" ++ "1.2.3")
        "nixpkgs-unstable" =
      { RunX := some ⟨"golangci", "golangci-lint", "1.2.3"⟩ } :=
  runx_external_registry "golangci" "golangci-lint" "1.2.3" "nixpkgs-unstable"
    (by decide) (by decide) (by decide) (by decide) (by decide) (by decide)

end Devbox
